import Mathlib

/-!
# Verification of the Petesh social-gallery client core

Shallow embedding of the core client logic of the repository:

* `src/components/Comments.tsx` — comment tree building (`buildTree`),
  cascading local deletion (`deleteComment`), reply-target clearing;
* `src/components/AccountMenu.tsx` (`Chat` component) — conversation
  identity (`dmChannel`), pair matching (`samePair`), realtime insert
  reconciliation and optimistic send with rollback;
* `src/providers/AuthProvider.tsx` — profile defaults and back-fill
  (`buildProfileDefaults`, `ensureProfile`) and the hydration generation
  guard (`commitIfLatest`).

JavaScript strings are modelled as `String`, nullable fields as `Option`,
and JS truthiness of a nullable string (`null` and `""` are falsy) by
`truthyStr`.  Timestamps that the code compares via
`new Date(x).getTime()` are modelled as the resulting numbers (`Nat`).
-/

/-- JS truthiness of a nullable string: `null` and `""` are falsy. -/
def truthyStr : Option String → Bool
  | none => false
  | some s => !(s == "")

/-- JS `a || b` on nullable strings: `b` when `a` is falsy. -/
def jsOr (a b : Option String) : Option String :=
  if truthyStr a then a else b

/-! ## Comments.tsx : data model -/

/-- A row of the `comments` table as selected by `Comments.tsx` (`type Row`).
`created_at` is modelled as the number produced by
`new Date(created_at).getTime()`, which is all the code uses it for. -/
structure Row where
  id : String
  photo_id : String
  parent_id : Option String
  user_id : String
  display_name : Option String
  body : String
  created_at : Nat
deriving DecidableEq, Repr

/-- A tree node: a row plus its ordered replies (`type Node = Row & { replies: Node[] }`). -/
inductive Node where
  | mk (row : Row) (replies : List Node)
deriving Repr

def Node.row : Node → Row
  | .mk r _ => r

def Node.replies : Node → List Node
  | .mk _ c => c

/-! ## Comments.tsx : buildTree

`buildTree` builds a JS `Map` from id to node (`byId`), iterating the rows
in order.  A JS `Map` keeps, for each key, the position of its first
insertion and the value of its last insertion; `byId.values()` iterates in
that key order.  `mapKeys`/`mapValues` model exactly that. -/

/-- Deduplicate a key list keeping each key at its first occurrence. -/
def dedupFirst : List String → List String
  | [] => []
  | i :: t => i :: (dedupFirst t).filter (fun j => !(j == i))

/-- Keys of `new Map(rows.map(r => [r.id, ...]))` in iteration order:
first occurrence of each id. -/
def mapKeys (rows : List Row) : List String :=
  dedupFirst (rows.map (·.id))

/-- The value held for a key after all insertions: the last row carrying it. -/
def lastRowWith (rows : List Row) (i : String) : Option Row :=
  (rows.filter (fun r => r.id == i)).getLast?

/-- `byId.values()` in insertion order. -/
def mapValues (rows : List Row) : List Row :=
  (mapKeys rows).filterMap (lastRowWith rows)

/-- The linking test of `buildTree`:
`n.parent_id && byId.has(n.parent_id)` (JS truthiness on the parent id). -/
def hasParent (rows : List Row) (r : Row) : Bool :=
  match r.parent_id with
  | none => false
  | some p => !(p == "") && rows.any (fun q => q.id == p)

/-- Nodes pushed to `roots`: parent id falsy or not in the map. -/
def rootsOf (rows : List Row) : List Row :=
  (mapValues rows).filter (fun r => !(hasParent rows r))

/-- The `replies` list accumulated for the node with id `p`, in iteration
order: every value whose parent link resolves to `p`. -/
def childrenOf (rows : List Row) (p : String) : List Row :=
  (mapValues rows).filter (fun r => hasParent rows r && r.parent_id == some p)

/-- Recursive materialisation of the linked structure reachable from one
row.  The source mutates shared node objects; the resulting forest is the
structure reachable from `roots` through the `replies` lists, which this
reproduces.  `fuel` bounds the recursion depth; `buildTree` passes
`rows.length`, which suffices for every chain of resolvable parent links
when ids are distinct (a longer chain would repeat a row). -/
def buildNodeRaw (rows : List Row) : Nat → Row → Node
  | 0, r => .mk r []
  | fuel + 1, r => .mk r ((childrenOf rows r.id).map (buildNodeRaw rows fuel))

/-- The forest after the linking loop of `buildTree`, before `sortRec`. -/
def buildRaw (rows : List Row) : List Node :=
  (rootsOf rows).map (buildNodeRaw rows rows.length)

/-- The comparator of `sortRec`:
`(a, b) => new Date(a.created_at).getTime() - new Date(b.created_at).getTime()`,
i.e. ascending `created_at`. -/
def nodeLE (a b : Node) : Bool :=
  decide (a.row.created_at ≤ b.row.created_at)

mutual

/-- Recursively sort the replies of a node, as `sortRec` does below the
top level. -/
def sortNode : Node → Node
  | .mk r kids => .mk r ((sortEach kids).mergeSort nodeLE)

/-- Sort every node of a list recursively (pointwise `sortNode`). -/
def sortEach : List Node → List Node
  | [] => []
  | n :: t => sortNode n :: sortEach t

end

/-- `sortRec(arr)`: sort the sibling list by `created_at` (JS
`Array.prototype.sort` is stable, modelled by `mergeSort`), then recurse
into every node's replies.  Because the recursive descent never changes a
node's own row — hence never changes any sort key — sorting the outer list
before or after the descent yields the same list; `sortForest_spec` below
proves this definition equal to the source's sort-then-recurse order. -/
def sortForest (l : List Node) : List Node :=
  (sortEach l).mergeSort nodeLE

/-- `buildTree(rows)` from `Comments.tsx`. -/
def buildTree (rows : List Row) : List Node :=
  sortForest (buildRaw rows)

mutual

/-- All rows of a node, itself first. -/
def flattenNode : Node → List Row
  | .mk r kids => r :: flattenList kids

/-- All rows of a forest. -/
def flattenList : List Node → List Row
  | [] => []
  | n :: t => flattenNode n ++ flattenList t

end

/-- Breadth layers of the linked structure: layer `0` is the root list,
layer `k+1` the concatenation of the children lists of layer `k`.  Proof
device for relating the built forest back to the flat collection. -/
def level (rows : List Row) : Nat → List Row
  | 0 => rootsOf rows
  | k + 1 => (level rows k).flatMap (fun r => childrenOf rows r.id)

mutual

/-- The sibling lists of a node are chronologically sorted and are stable
permutations of the children lists recorded in the flat collection:
filtering any sibling list at one timestamp yields exactly the rows of
the corresponding `childrenOf` list, in input order. -/
def NodeChrono (rows : List Row) : Node → Prop
  | .mk r kids =>
      List.Pairwise (fun a b => a.row.created_at ≤ b.row.created_at) kids
      ∧ (∀ t, (kids.map Node.row).filter (fun q => q.created_at == t)
            = (childrenOf rows r.id).filter (fun q => q.created_at == t))
      ∧ EachChrono rows kids

/-- `NodeChrono` at every node of a list. -/
def EachChrono (rows : List Row) : List Node → Prop
  | [] => True
  | n :: t => NodeChrono rows n ∧ EachChrono rows t

end

/-! ## Comments.tsx : deleteComment — local cascading prune -/

/-- The `childrenByParent` adjacency of `deleteComment`: ids of the rows
whose (truthy) `parent_id` equals `p`, in collection order. -/
def childIdsOf (prev : List Row) (p : String) : List String :=
  (prev.filter (fun r =>
      match r.parent_id with
      | some q => !(q == "") && q == p
      | none => false)).map (·.id)

/-- One parent→child step of the adjacency above. -/
def stepRel (prev : List Row) (a b : String) : Prop :=
  b ∈ childIdsOf prev a

/-- The `while (stack.length)` loop of `deleteComment`: pop `cur` from the
top of the stack, skip it if already collected, otherwise collect it and
push its children (pushing in order means the last child is on top, hence
`reverse`).  `fuel` bounds the iteration count; `toRemove` passes a bound
large enough for the loop to drain the stack. -/
def dfsRemove (prev : List Row) : Nat → List String → List String → List String
  | 0, _, seen => seen
  | _ + 1, [], seen => seen
  | fuel + 1, cur :: stack, seen =>
    if seen.contains cur then
      dfsRemove prev fuel stack seen
    else
      dfsRemove prev fuel ((childIdsOf prev cur).reverse ++ stack) (cur :: seen)

/-- The `toRemove` set (as the list of collected ids), starting from the
deleted id. -/
def toRemove (prev : List Row) (id : String) : List String :=
  dfsRemove prev ((prev.length + 2) * (prev.length + 2)) [id] []

/-- The local pruning of `deleteComment`: keep the collection untouched
when the target id is absent (`if (!byId.has(id)) return prev`), else drop
every row whose id was collected. -/
def pruneRows (prev : List Row) (id : String) : List Row :=
  if (prev.map (·.id)).contains id then
    prev.filter (fun r => !((toRemove prev id).contains r.id))
  else prev

/-- The state effect of a confirmed `deleteComment(id)` on
`(rows, replyTo)`: prune locally, and clear the reply target only when it
is exactly the deleted id (`if (replyTo === id) setReplyTo(null)`). -/
def deleteCommentLocal (prev : List Row) (replyTo : Option String) (id : String) :
    List Row × Option String :=
  (pruneRows prev id, if replyTo == some id then none else replyTo)

/-! ## Chat (AccountMenu.tsx) : messages -/

/-- A row of the `messages` table (`type Message`). -/
structure Message where
  id : String
  sender_id : String
  receiver_id : String
  body : String
  created_at : String
deriving DecidableEq, Repr

/-- `samePair(m, me, other)` from `Chat`. -/
def samePair (m : Message) (me other : String) : Bool :=
  (m.sender_id == me && m.receiver_id == other)
  || (m.sender_id == other && m.receiver_id == me)

/-- `dmChannel(me, other)`: deterministic channel name `dm:<min>:<max>`.
JS string `<` and Lean string `<` are both lexicographic on the
characters. -/
def dmChannel (me other : String) : String :=
  if me < other then "dm:" ++ me ++ ":" ++ other else "dm:" ++ other ++ ":" ++ me

/-- The realtime `INSERT` handler of `Chat`: ignore the event unless its
pair matches the active conversation, then append unless the id is
already present. -/
def onInsertEvent (msgs : List Message) (me other : String) (m : Message) :
    List Message :=
  if !(samePair m me other) then msgs
  else if msgs.any (fun x => x.id == m.id) then msgs
  else msgs ++ [m]

/-- JS `String.prototype.trim()`: strip leading and trailing whitespace
(modelled on the character list so that it computes by reduction). -/
def jsTrim (s : String) : String :=
  ⟨((s.data.dropWhile Char.isWhitespace).reverse.dropWhile Char.isWhitespace).reverse⟩

/-- The chat view state touched by `send()`. -/
structure ChatState where
  messages : List Message
  text : String
  errMsg : String
deriving DecidableEq, Repr

/-- `send()` from `Chat`, for a signed-in user `me` with selection
`otherId`: trim the input (abort when empty), clear error and input,
append the optimistic record with the fresh id `newId`, then either keep
it (backend insert succeeded, `insertResult = none`) or surface the error
and filter the optimistic id back out (`insertResult = some e`). -/
def sendStep (st : ChatState) (me otherId newId nowIso : String)
    (insertResult : Option String) : ChatState :=
  let body := jsTrim st.text
  if body == "" then st
  else
    let st1 : ChatState :=
      { messages := st.messages ++ [⟨newId, me, otherId, body, nowIso⟩],
        text := "", errMsg := "" }
    match insertResult with
    | none => st1
    | some e =>
        { st1 with
          errMsg := e,
          messages := st1.messages.filter (fun m => !(m.id == newId)) }

/-! ## AuthProvider.tsx : profiles -/

/-- A row of the `profiles` table (`type Profile`). -/
structure Profile where
  id : String
  display_name : Option String
  avatar_url : Option String
deriving DecidableEq, Repr

/-- The identity-provider data `buildProfileDefaults` reads from the
user object (`user_metadata` fields and the email). -/
structure UserMeta where
  uid : String
  full_name : Option String
  name : Option String
  email : Option String
  avatar_url : Option String
  picture : Option String
deriving DecidableEq, Repr

/-- The defaults derived by `buildProfileDefaults`: the display name falls
back through `full_name || name || email prefix || "Usuario"` and is thus
always a string; the avatar is `avatar_url || picture || null`. -/
structure Defaults where
  display_name : String
  avatar_url : Option String
deriving DecidableEq, Repr

/-- `buildProfileDefaults(user)` from `AuthProvider.tsx`. -/
def buildProfileDefaults (u : UserMeta) : Defaults :=
  let dn := jsOr u.full_name (jsOr u.name (u.email.map (fun e => (e.splitOn "@").headD "")))
  { display_name :=
      match jsOr dn (some "Usuario") with
      | some s => s
      | none => "Usuario",
    avatar_url := jsOr u.avatar_url (jsOr u.picture none) }

/-- The patch object built by `ensureProfile` when a profile row already
exists: a field is patched only when it is falsy (null or empty) in the
existing row and the corresponding default is truthy. -/
structure ProfilePatch where
  display_name : Option String
  avatar_url : Option String
deriving DecidableEq, Repr

def patchOf (existing : Profile) (defaults : Defaults) : ProfilePatch :=
  { display_name :=
      if !(truthyStr existing.display_name) && !(defaults.display_name == "") then
        some defaults.display_name
      else none,
    avatar_url :=
      if !(truthyStr existing.avatar_url) && truthyStr defaults.avatar_url then
        defaults.avatar_url
      else none }

/-- Applying the patch to the stored row (the effect of
`update(patch).eq("id", ...)` on it). -/
def applyPatch (p : Profile) (patch : ProfilePatch) : Profile :=
  { p with
    display_name :=
      match patch.display_name with
      | some v => some v
      | none => p.display_name,
    avatar_url :=
      match patch.avatar_url with
      | some v => some v
      | none => p.avatar_url }

/-- The existing-row branch of `ensureProfile` (steps 3 of the source):
build the patch; when it is empty return the existing row unchanged,
otherwise update and return the re-selected, i.e. patched, row.  (The
missing-row branch inserts a fresh row from the defaults and is driven by
backend races the claims do not touch.) -/
def ensureProfileExisting (existing : Profile) (defaults : Defaults) : Profile :=
  let patch := patchOf existing defaults
  if patch.display_name == none && patch.avatar_url == none then existing
  else applyPatch existing patch

/-! ## AuthProvider.tsx : hydration generation guard -/

/-- The provider state committed through `set*` calls. -/
structure Committed where
  session : Option String
  user : Option String
  profile : Option Profile
  authLoading : Bool
  profileLoading : Bool
  errMsg : Option String
deriving DecidableEq, Repr

/-- The provider's mutable cell state: the `runIdRef` generation counter,
the `mountedRef` flag and the committed view state. -/
structure AuthState where
  runId : Nat
  mounted : Bool
  committed : Committed
deriving DecidableEq, Repr

/-- `commitIfLatest(runId, fn)`: apply `fn` to the committed state only
when still mounted and `runId` equals the current generation. -/
def commitIfLatest (st : AuthState) (runId : Nat) (f : Committed → Committed) :
    AuthState :=
  if st.mounted && runId == st.runId then
    { st with committed := f st.committed }
  else st

/-- The start of `hydrateFromSession`: `const runId = ++runIdRef.current`
hands the attempt a fresh generation and bumps the counter. -/
def beginHydration (st : AuthState) : Nat × AuthState :=
  (st.runId + 1, { st with runId := st.runId + 1 })

/-- The events that touch the guard: a hydration attempt starting, a
commit tagged with some attempt's generation, and unmounting. -/
inductive AuthOp where
  | begin
  | commit (runId : Nat) (f : Committed → Committed)
  | unmount

def authStep (st : AuthState) : AuthOp → AuthState
  | .begin => (beginHydration st).2
  | .commit rid f => commitIfLatest st rid f
  | .unmount => { st with mounted := false }

def runAuth (st : AuthState) (ops : List AuthOp) : AuthState :=
  ops.foldl authStep st

/-! ## Basic lemmas about the embedding -/

/-- `dedupFirst` is the identity on duplicate-free key lists. -/
theorem dedupFirst_eq_self : ∀ (l : List String), l.Nodup → dedupFirst l = l
  | [], _ => rfl
  | i :: t, h => by
    have ht := (List.nodup_cons.mp h).2
    have hi := (List.nodup_cons.mp h).1
    unfold dedupFirst
    rw [dedupFirst_eq_self t ht, List.filter_eq_self.mpr]
    intro j hj
    have hne : j ≠ i := fun e => hi (e ▸ hj)
    simp [hne]

/-- With pairwise-distinct ids a JS `Map` built from the rows is the
identity view: its values, in iteration order, are the rows themselves. -/
theorem mapValues_eq_self (rows : List Row) (h : (rows.map (·.id)).Nodup) :
    mapValues rows = rows := by
  unfold mapValues mapKeys
  rw [dedupFirst_eq_self _ h]
  induction rows with
  | nil => rfl
  | cons r rest ih =>
    simp only [List.map_cons, List.filterMap_cons]
    have hrest : (rest.map (·.id)).Nodup := (List.nodup_cons.mp h).2
    have hid : r.id ∉ rest.map (·.id) := (List.nodup_cons.mp h).1
    have hval : lastRowWith (r :: rest) r.id = some r := by
      unfold lastRowWith
      have : rest.filter (fun q => q.id == r.id) = [] := by
        rw [List.filter_eq_nil_iff]
        intro q hq hbeq
        exact hid (List.mem_map.mpr ⟨q, hq, by simpa using hbeq⟩)
      simp [this]
    rw [hval]
    have hrec : ∀ i ∈ rest.map (·.id), lastRowWith (r :: rest) i = lastRowWith rest i := by
      intro i hi
      unfold lastRowWith
      have : (r.id == i) = false := by
        rcases List.mem_map.mp hi with ⟨q, _, rfl⟩
        by_contra hcon
        simp only [Bool.not_eq_false, beq_iff_eq] at hcon
        exact hid (hcon ▸ hi)
      simp [List.filter_cons, this]
    rw [List.filterMap_congr hrec, ih hrest]

/-! ## C10 — deleting an absent id leaves the collection unchanged -/

/-- C10.  For every flat comment collection and every identifier that does
not occur in it, the local pruning step of `deleteComment` returns the
collection exactly unchanged: the presence check `byId.has(id)`
short-circuits the filter. -/
theorem pruneRows_absent_id (prev : List Row) (id : String)
    (h : id ∉ prev.map (·.id)) : pruneRows prev id = prev := by
  unfold pruneRows
  rw [if_neg]
  simpa using h

/-- Witness for C10 at a concrete collection and absent id. -/
theorem pruneRows_absent_id_witness :
    "x" ∉ ([⟨"a", "ph", none, "u", none, "A", 1⟩] : List Row).map (·.id)
    ∧ pruneRows [⟨"a", "ph", none, "u", none, "A", 1⟩] "x"
      = [⟨"a", "ph", none, "u", none, "A", 1⟩] :=
  ⟨by decide, pruneRows_absent_id _ _ (by decide)⟩

/-! ## C5 — reply-target clearing on deletion

The claim says the reply target is cleared whenever it is among the
removed identifiers.  The source only compares it with the deleted id
itself (`if (replyTo === id) setReplyTo(null)`), so a reply target that is
a removed descendant survives the deletion. -/

/-- Counterexample to C5 as stated: deleting root `a` removes its child
`b` from the collection, yet a reply target pointing at `b` is not
cleared. -/
theorem deleteComment_replyTo_counterexample :
    "b" ∈ toRemove
        [⟨"a", "ph", none, "u", none, "A", 1⟩, ⟨"b", "ph", some "a", "u", none, "B", 2⟩] "a"
    ∧ (deleteCommentLocal
        [⟨"a", "ph", none, "u", none, "A", 1⟩, ⟨"b", "ph", some "a", "u", none, "B", 2⟩]
        (some "b") "a").2 = some "b" := by
  constructor
  · decide
  · decide

/-- C5 (amended).  The deletion operation clears the reply-target
selection exactly when the selection is the deleted identifier itself (or
was already empty); a selection pointing at a removed descendant is left
in place. -/
theorem deleteComment_clears_replyTo_iff (prev : List Row) (rt : Option String)
    (id : String) :
    (deleteCommentLocal prev rt id).2 = none ↔ rt = none ∨ rt = some id := by
  unfold deleteCommentLocal
  cases rt with
  | none => simp
  | some x =>
    by_cases hx : x = id
    · subst hx; simp
    · simp [hx]

/-! ## C6 — optimistic send rollback -/

/-- C6.  For every chat state and optimistic send whose generated id is
fresh, when the backend insert fails the message list returns to exactly
its pre-send contents, the failure message is surfaced, and the cleared
input text is not restored. -/
theorem send_failure_rolls_back (st : ChatState) (me otherId newId nowIso e : String)
    (htext : jsTrim st.text ≠ "")
    (hfresh : ∀ m ∈ st.messages, m.id ≠ newId) :
    (sendStep st me otherId newId nowIso (some e)).messages = st.messages
    ∧ (sendStep st me otherId newId nowIso (some e)).errMsg = e
    ∧ (sendStep st me otherId newId nowIso (some e)).text = ""
    ∧ (st.text ≠ "" →
        (sendStep st me otherId newId nowIso (some e)).text ≠ st.text) := by
  have hcond : (jsTrim st.text == "") = false := by simpa using htext
  have hmsgs : (st.messages
      ++ [(⟨newId, me, otherId, jsTrim st.text, nowIso⟩ : Message)]).filter
        (fun m => !(m.id == newId)) = st.messages := by
    rw [List.filter_append]
    have h1 : st.messages.filter (fun m => !(m.id == newId)) = st.messages := by
      rw [List.filter_eq_self]
      intro m hm
      simpa using hfresh m hm
    have h2 : List.filter (fun m => !(m.id == newId))
        [(⟨newId, me, otherId, jsTrim st.text, nowIso⟩ : Message)] = [] := by
      simp
    rw [h1, h2, List.append_nil]
  refine ⟨?_, ?_, ?_, ?_⟩
  · show ChatState.messages (if (jsTrim st.text == "") = true then st else _) = st.messages
    rw [hcond]
    simpa using hmsgs
  · show ChatState.errMsg (if (jsTrim st.text == "") = true then st else _) = e
    rw [hcond]
    simp
  · show ChatState.text (if (jsTrim st.text == "") = true then st else _) = ""
    rw [hcond]
    simp
  · intro hne hcon
    apply hne
    revert hcon
    show ChatState.text (if (jsTrim st.text == "") = true then st else _) = st.text → _
    rw [hcond]
    intro hcon
    simp only [Bool.false_eq_true, if_false] at hcon
    exact (hcon ▸ rfl : st.text = "")

/-- Witness for C6 at a concrete state. -/
theorem send_failure_rolls_back_witness :
    jsTrim (ChatState.mk [] "hola" "").text ≠ ""
    ∧ (∀ m ∈ (ChatState.mk [] "hola" "").messages, m.id ≠ "m1")
    ∧ (sendStep (ChatState.mk [] "hola" "") "u1" "u2" "m1" "t0" (some "boom")).messages = []
    ∧ (sendStep (ChatState.mk [] "hola" "") "u1" "u2" "m1" "t0" (some "boom")).errMsg = "boom" := by
  refine ⟨by decide, by simp, ?_, ?_⟩
  · exact (send_failure_rolls_back (ChatState.mk [] "hola" "") "u1" "u2" "m1" "t0" "boom"
      (by decide) (by simp)).1
  · exact (send_failure_rolls_back (ChatState.mk [] "hola" "") "u1" "u2" "m1" "t0" "boom"
      (by decide) (by simp)).2.1

/-! ## C3 — realtime insert reconciliation -/

/-- C3.  A realtime `INSERT` event is appended exactly when its pair
matches the active conversation and its id is not already present; in
particular an optimistic send followed by the realtime echo of the same
id leaves exactly one entry with that id. -/
theorem onInsertEvent_dedup :
    (∀ (msgs : List Message) (me other : String) (m : Message),
        samePair m me other = true → (∀ x ∈ msgs, x.id ≠ m.id) →
        onInsertEvent msgs me other m = msgs ++ [m])
    ∧ (∀ (msgs : List Message) (me other : String) (m : Message),
        samePair m me other = false ∨ (∃ x ∈ msgs, x.id = m.id) →
        onInsertEvent msgs me other m = msgs)
    ∧ (∀ (msgs : List Message) (me other : String) (mOpt mRt : Message),
        (∀ x ∈ msgs, x.id ≠ mOpt.id) → mRt.id = mOpt.id →
        ((onInsertEvent (msgs ++ [mOpt]) me other mRt).countP
            (fun x => x.id == mOpt.id)) = 1) := by
  refine ⟨?_, ?_, ?_⟩
  · intro msgs me other m hpair hfresh
    have hany : msgs.any (fun x => x.id == m.id) = false := by
      rw [List.any_eq_false]
      intro x hx
      simpa using hfresh x hx
    simp [onInsertEvent, hpair, hany]
  · intro msgs me other m h
    rcases h with hpair | ⟨x, hx, hid⟩
    · simp [onInsertEvent, hpair]
    · have hany : msgs.any (fun x => x.id == m.id) = true :=
        List.any_eq_true.mpr ⟨x, hx, by simpa using hid⟩
      unfold onInsertEvent
      by_cases hp : samePair m me other <;> simp [hp, hany]
  · intro msgs me other mOpt mRt hfresh hid
    have hcount : ((msgs ++ [mOpt]).countP (fun x => x.id == mOpt.id)) = 1 := by
      rw [List.countP_append]
      have h0 : msgs.countP (fun x => x.id == mOpt.id) = 0 := by
        rw [List.countP_eq_zero]
        intro x hx
        simpa using hfresh x hx
      simp [h0]
    have hunchanged : onInsertEvent (msgs ++ [mOpt]) me other mRt = msgs ++ [mOpt] := by
      unfold onInsertEvent
      have hany : (msgs ++ [mOpt]).any (fun x => x.id == mRt.id) = true :=
        List.any_eq_true.mpr ⟨mOpt, by simp, by simp [hid]⟩
      by_cases hp : samePair mRt me other <;> simp [hp, hany]
    rw [hunchanged, hcount]

/-- Witness for C3: an optimistic record followed by its realtime echo. -/
theorem onInsertEvent_dedup_witness :
    samePair (Message.mk "x" "u1" "u2" "hey" "t1") "u1" "u2" = true
    ∧ (∀ m ∈ ([] : List Message), m.id ≠ "x")
    ∧ onInsertEvent [] "u1" "u2" (Message.mk "x" "u1" "u2" "hey" "t1")
        = [Message.mk "x" "u1" "u2" "hey" "t1"]
    ∧ ((onInsertEvent ([] ++ [Message.mk "x" "u1" "u2" "hey" "t1"]) "u1" "u2"
          (Message.mk "x" "u2" "u1" "hey" "t2")).countP (fun m => m.id == "x")) = 1 := by
  refine ⟨by decide, by simp, ?_, ?_⟩
  · exact onInsertEvent_dedup.1 [] "u1" "u2" _ (by decide) (by simp)
  · exact onInsertEvent_dedup.2.2 [] "u1" "u2"
      (Message.mk "x" "u1" "u2" "hey" "t1") (Message.mk "x" "u2" "u1" "hey" "t2")
      (by simp) (by decide)

/-! ## C2 — the hydration generation guard discards stale commits -/

/-- The generation counter never decreases under any sequence of
provider events. -/
theorem runAuth_runId_mono (st : AuthState) (ops : List AuthOp) :
    st.runId ≤ (runAuth st ops).runId := by
  induction ops generalizing st with
  | nil => exact Nat.le_refl _
  | cons op rest ih =>
    refine Nat.le_trans ?_ (ih (authStep st op))
    cases op with
    | begin => exact Nat.le_succ _
    | commit rid f =>
      show st.runId ≤ (commitIfLatest st rid f).runId
      unfold commitIfLatest
      by_cases h : (st.mounted && rid == st.runId) = true <;> simp [h]
    | unmount => exact Nat.le_refl _

/-- C2.  Once a later hydration attempt has started (bumping the
generation counter), a commit tagged with an earlier attempt's generation
`r1` is discarded — the provider state is left exactly unchanged — no
matter which further events happened in between. -/
theorem stale_hydration_commit_discarded (st : AuthState) (r1 : Nat)
    (ops : List AuthOp) (f : Committed → Committed)
    (hr1 : r1 ≤ st.runId) :
    commitIfLatest (runAuth (authStep st .begin) ops) r1 f
      = runAuth (authStep st .begin) ops := by
  have hlt : r1 < (runAuth (authStep st .begin) ops).runId := by
    have h2 : st.runId + 1 ≤ (runAuth (authStep st .begin) ops).runId := by
      have := runAuth_runId_mono (authStep st .begin) ops
      simpa [authStep, beginHydration] using this
    omega
  unfold commitIfLatest
  rw [if_neg]
  intro hcon
  rw [Bool.and_eq_true] at hcon
  have : r1 = (runAuth (authStep st .begin) ops).runId := by simpa using hcon.2
  omega

/-- Witness for C2: attempt 1 (generation 1) tries to commit after
attempt 2 (generation 2) has started and performed its own commits. -/
theorem stale_hydration_commit_discarded_witness :
    (1 : Nat) ≤ (AuthState.mk 1 true (Committed.mk none none none true false none)).runId
    ∧ commitIfLatest
        (runAuth
          (authStep (AuthState.mk 1 true (Committed.mk none none none true false none)) .begin)
          [.commit 2 (fun c => { c with user := some "u2" })])
        1 (fun c => { c with user := some "u1" })
      = runAuth
          (authStep (AuthState.mk 1 true (Committed.mk none none none true false none)) .begin)
          [.commit 2 (fun c => { c with user := some "u2" })] :=
  ⟨by decide,
    stale_hydration_commit_discarded
      (AuthState.mk 1 true (Committed.mk none none none true false none)) 1
      [.commit 2 (fun c => { c with user := some "u2" })]
      (fun c => { c with user := some "u1" }) (by decide)⟩

/-! ## C8 — profile back-fill patches only missing fields -/

/-- C8.  For every existing profile row and any identity-provider
defaults, the back-fill of `ensureProfile` keeps every truthy (non-null,
non-empty) existing field: a custom display name or avatar is never
overwritten, only falsy fields can change, and the id is untouched. -/
theorem ensureProfile_keeps_custom_fields (existing : Profile) (defaults : Defaults) :
    (truthyStr existing.display_name = true →
        (ensureProfileExisting existing defaults).display_name = existing.display_name)
    ∧ (truthyStr existing.avatar_url = true →
        (ensureProfileExisting existing defaults).avatar_url = existing.avatar_url)
    ∧ ((ensureProfileExisting existing defaults).display_name ≠ existing.display_name →
        truthyStr existing.display_name = false)
    ∧ ((ensureProfileExisting existing defaults).avatar_url ≠ existing.avatar_url →
        truthyStr existing.avatar_url = false)
    ∧ (ensureProfileExisting existing defaults).id = existing.id := by
  unfold ensureProfileExisting applyPatch patchOf
  by_cases hdn : truthyStr existing.display_name <;>
    by_cases hav : truthyStr existing.avatar_url <;>
      by_cases hd1 : (defaults.display_name == "") = true <;>
        by_cases hd2 : truthyStr defaults.avatar_url <;>
          simp [hdn, hav, hd1, hd2] <;> (try constructor) <;> (try split) <;> rfl

/-- Witness for C8: a user-set display name survives back-fill against
different identity-provider defaults. -/
theorem ensureProfile_keeps_custom_fields_witness :
    truthyStr (Profile.mk "u1" (some "Custom") none).display_name = true
    ∧ (ensureProfileExisting (Profile.mk "u1" (some "Custom") none)
        (Defaults.mk "Google Name" (some "http:pic"))).display_name = some "Custom" :=
  ⟨by decide,
    (ensureProfile_keeps_custom_fields (Profile.mk "u1" (some "Custom") none)
      (Defaults.mk "Google Name" (some "http:pic"))).1 (by decide)⟩

/-! ## C7 — conversation identity

`dmChannel` is symmetric for all id strings, but as stated the claim also
asserts that distinct unordered pairs always get distinct identities, and
that fails when an id itself contains the delimiter character `:`. -/

/-- Splitting a character list at a separator is unambiguous when the
separator does not occur in either prefix. -/
theorem colon_split_unique :
    ∀ (x z y w : List Char), ':' ∉ x → ':' ∉ z →
      x ++ ':' :: y = z ++ ':' :: w → x = z ∧ y = w := by
  intro x
  induction x with
  | nil =>
    intro z y w _ hz h
    cases z with
    | nil => exact ⟨rfl, by simpa using h⟩
    | cons zh zt =>
      exfalso
      apply hz
      have hzc : (':' : Char) = zh := by
        have := congrArg (fun l => l.head?) h
        simpa using this
      exact hzc ▸ List.mem_cons_self _ _
  | cons xh xt ih =>
    intro z y w hx hz h
    cases z with
    | nil =>
      exfalso
      apply hx
      have hxc : xh = ':' := by
        have := congrArg (fun l => l.head?) h
        simpa using this
      exact hxc ▸ List.mem_cons_self _ _
    | cons zh zt =>
      simp only [List.cons_append, List.cons.injEq] at h
      obtain ⟨rfl, htail⟩ := h
      have hx' : ':' ∉ xt := fun hmem => hx (List.mem_cons_of_mem _ hmem)
      have hz' : ':' ∉ zt := fun hmem => hz (List.mem_cons_of_mem _ hmem)
      obtain ⟨rfl, rfl⟩ := ih zt y w hx' hz' htail
      exact ⟨rfl, rfl⟩

/-- The characters of `"dm:" ++ x ++ ":" ++ y`. -/
theorem dm_concat_data (x y : String) :
    ("dm:" ++ x ++ ":" ++ y).data = ['d', 'm', ':'] ++ (x.data ++ ':' :: y.data) := by
  rw [String.data_append, String.data_append, String.data_append]
  have h1 : ("dm:" : String).data = ['d', 'm', ':'] := by decide
  have h2 : (":" : String).data = [':'] := by decide
  rw [h1, h2]
  simp

/-- `dmChannel a b` is `"dm:" ++ x ++ ":" ++ y` for the input pair in one
of its two orders. -/
theorem dmChannel_canon (a b : String) :
    ∃ x y : String, ((x = a ∧ y = b) ∨ (x = b ∧ y = a)) ∧
      (dmChannel a b).data = ['d', 'm', ':'] ++ (x.data ++ ':' :: y.data) := by
  unfold dmChannel
  by_cases h : a < b
  · exact ⟨a, b, Or.inl ⟨rfl, rfl⟩, by rw [if_pos h]; exact dm_concat_data a b⟩
  · exact ⟨b, a, Or.inr ⟨rfl, rfl⟩, by rw [if_neg h]; exact dm_concat_data b a⟩

/-- Counterexample to C7 as stated: the distinct unordered pairs
`{"a", "b:c"}` and `{"a:b", "c"}` receive the same channel identity
(both are `"dm:a:b:c"`). -/
theorem dmChannel_collision :
    dmChannel "a" "b:c" = dmChannel "a:b" "c"
    ∧ ¬ (("a" = "a:b" ∧ "b:c" = "c") ∨ ("a" = "c" ∧ "b:c" = "a:b")) := by
  constructor
  · rw [dmChannel, dmChannel,
      if_pos (by rw [String.lt_iff_toList_lt]; decide),
      if_pos (by rw [String.lt_iff_toList_lt]; decide)]
    rfl
  · decide

/-- C7 (amended).  The conversation identity is symmetric for all
participant id strings; and whenever the ids are free of the delimiter
character `:` (as the backend's identifiers are), distinct unordered
pairs receive distinct identities. -/
theorem dmChannel_symm_inj :
    (∀ a b : String, dmChannel a b = dmChannel b a)
    ∧ (∀ a b c d : String,
        ':' ∉ a.data → ':' ∉ b.data → ':' ∉ c.data → ':' ∉ d.data →
        dmChannel a b = dmChannel c d →
        (a = c ∧ b = d) ∨ (a = d ∧ b = c)) := by
  constructor
  · intro a b
    unfold dmChannel
    rcases lt_trichotomy a b with h | h | h
    · rw [if_pos h, if_neg (asymm h)]
    · subst h; rfl
    · rw [if_neg (asymm h), if_pos h]
  · intro a b c d ha hb hc hd heq
    obtain ⟨x, y, hxy, hdx⟩ := dmChannel_canon a b
    obtain ⟨z, w, hzw, hdz⟩ := dmChannel_canon c d
    have hlists : x.data ++ ':' :: y.data = z.data ++ ':' :: w.data := by
      apply @List.append_cancel_left Char ['d', 'm', ':']
      rw [← hdx, ← hdz, heq]
    rcases hxy with ⟨rfl, rfl⟩ | ⟨rfl, rfl⟩ <;>
      rcases hzw with ⟨rfl, rfl⟩ | ⟨rfl, rfl⟩
    · obtain ⟨h1, h2⟩ := colon_split_unique _ _ _ _ ha hc hlists
      exact Or.inl ⟨String.ext h1, String.ext h2⟩
    · obtain ⟨h1, h2⟩ := colon_split_unique _ _ _ _ ha hd hlists
      exact Or.inr ⟨String.ext h1, String.ext h2⟩
    · obtain ⟨h1, h2⟩ := colon_split_unique _ _ _ _ hb hc hlists
      exact Or.inr ⟨String.ext h2, String.ext h1⟩
    · obtain ⟨h1, h2⟩ := colon_split_unique _ _ _ _ hb hd hlists
      exact Or.inl ⟨String.ext h2, String.ext h1⟩

/-- Witness for C7 (amended) on colon-free ids. -/
theorem dmChannel_symm_inj_witness :
    ':' ∉ ("u1" : String).data
    ∧ dmChannel "u1" "u2" = dmChannel "u2" "u1"
    ∧ (("u1" = "u2" ∧ "u2" = "u1") ∨ ("u1" = "u1" ∧ "u2" = "u2")) := by
  refine ⟨by decide, dmChannel_symm_inj.1 "u1" "u2", ?_⟩
  exact dmChannel_symm_inj.2 "u1" "u2" "u2" "u1"
    (by decide) (by decide) (by decide) (by decide)
    (dmChannel_symm_inj.1 "u1" "u2")

/-! ## C4 — the cascade prune removes exactly the reachable set

`toRemove` is a stack-based traversal with a visited set; we prove that
the collected ids are exactly the ids reachable from the target through
parent→child links (`Relation.ReflTransGen (stepRel prev)`), and hence
that the prune removes exactly the target and its transitive
descendants. -/

/-- Every child id recorded by the adjacency is an id of the collection. -/
theorem childIdsOf_subset (prev : List Row) (p : String) :
    ∀ c ∈ childIdsOf prev p, c ∈ prev.map (·.id) := by
  intro c hc
  unfold childIdsOf at hc
  rcases List.mem_map.mp hc with ⟨r, hr, rfl⟩
  exact List.mem_map.mpr ⟨r, (List.mem_filter.mp hr).1, rfl⟩

/-- The length of the adjacency list of any id is at most the collection
size. -/
theorem childIdsOf_length_le (prev : List Row) (p : String) :
    (childIdsOf prev p).length ≤ prev.length := by
  unfold childIdsOf
  rw [List.length_map]
  exact (List.filter_sublist prev).length_le

/-- A duplicate-free list contained in `u` is no longer than `u.dedup`. -/
theorem nodup_subset_length_le (s u : List String) (hnd : s.Nodup)
    (hsub : ∀ a ∈ s, a ∈ u) : s.length ≤ u.dedup.length := by
  have h1 : s.toFinset.card = s.length := List.toFinset_card_of_nodup hnd
  have h2 : u.toFinset.card = u.dedup.length := List.card_toFinset u
  have h3 : s.toFinset ⊆ u.toFinset := by
    intro a ha
    rw [List.mem_toFinset] at ha ⊢
    exact hsub a ha
  have := Finset.card_le_card h3
  omega

/-- Unfolding reachability one step from its start. -/
theorem reach_head_iff (prev : List Row) (cur x : String) :
    Relation.ReflTransGen (stepRel prev) cur x ↔
      x = cur ∨ ∃ c ∈ childIdsOf prev cur, Relation.ReflTransGen (stepRel prev) c x := by
  constructor
  · intro h
    rcases Relation.ReflTransGen.cases_head h with heq | ⟨c, hstep, htail⟩
    · exact Or.inl heq.symm
    · exact Or.inr ⟨c, hstep, htail⟩
  · intro h
    rcases h with rfl | ⟨c, hc, htail⟩
    · exact Relation.ReflTransGen.refl
    · exact Relation.ReflTransGen.head hc htail

/-- When the collected set is closed up to the remaining stack,
everything reachable from a collected id is either collected or reachable
from the stack. -/
theorem reach_absorbed (prev : List Row) (seen rest : List String)
    (hclosed : ∀ y ∈ seen, ∀ c ∈ childIdsOf prev y, c ∈ seen ∨ c ∈ rest) :
    ∀ a x, Relation.ReflTransGen (stepRel prev) a x → a ∈ seen →
      x ∈ seen ∨ ∃ s ∈ rest, Relation.ReflTransGen (stepRel prev) s x := by
  intro a x h
  induction h using Relation.ReflTransGen.head_induction_on with
  | refl => exact fun hx => Or.inl hx
  | head hstep htail ih =>
    intro ha
    rcases hclosed _ ha _ hstep with hcseen | hcrest
    · exact ih hcseen
    · exact Or.inr ⟨_, hcrest, htail⟩

/-- Correctness of the traversal loop: with enough fuel and the loop
invariants, the final collected set is the initial one plus everything
reachable from the stack. -/
theorem dfsRemove_mem (prev : List Row) (root : String) :
    ∀ (fuel : Nat) (stack seen : List String),
      ((root :: prev.map (·.id)).dedup.length - seen.length) * (prev.length + 1)
          + stack.length ≤ fuel →
      (∀ s ∈ stack, s ∈ root :: prev.map (·.id)) →
      (∀ s ∈ seen, s ∈ root :: prev.map (·.id)) →
      seen.Nodup →
      (∀ y ∈ seen, ∀ c ∈ childIdsOf prev y, c ∈ seen ∨ c ∈ stack) →
      ∀ x, x ∈ dfsRemove prev fuel stack seen ↔
        x ∈ seen ∨ ∃ s ∈ stack, Relation.ReflTransGen (stepRel prev) s x := by
  intro fuel
  induction fuel with
  | zero =>
    intro stack seen hfuel _ _ _ _ x
    have hstack : stack = [] := by
      have : stack.length = 0 := by omega
      exact List.length_eq_zero.mp this
    subst hstack
    simp [dfsRemove]
  | succ fuel ih =>
    intro stack seen hfuel hstackU hseenU hnd hclosed x
    cases stack with
    | nil => simp [dfsRemove]
    | cons cur rest =>
      show x ∈ (if seen.contains cur then dfsRemove prev fuel rest seen
          else dfsRemove prev fuel ((childIdsOf prev cur).reverse ++ rest) (cur :: seen)) ↔ _
      by_cases hc : seen.contains cur = true
      · -- already collected: drop it; its reachable set is absorbed
        rw [if_pos hc]
        have hcur : cur ∈ seen := by simpa using hc
        have hclosed' : ∀ y ∈ seen, ∀ c ∈ childIdsOf prev y, c ∈ seen ∨ c ∈ rest := by
          intro y hy c hcc
          rcases hclosed y hy c hcc with h | h
          · exact Or.inl h
          · rcases List.mem_cons.mp h with rfl | h
            · exact Or.inl hcur
            · exact Or.inr h
        rw [ih rest seen (by simp at hfuel ⊢; omega)
          (fun s hs => hstackU s (List.mem_cons_of_mem _ hs)) hseenU hnd hclosed']
        constructor
        · rintro (h | ⟨s, hs, hr⟩)
          · exact Or.inl h
          · exact Or.inr ⟨s, List.mem_cons_of_mem _ hs, hr⟩
        · rintro (h | ⟨s, hs, hr⟩)
          · exact Or.inl h
          · rcases List.mem_cons.mp hs with rfl | hs
            · exact reach_absorbed prev seen rest hclosed' s x hr hcur
            · exact Or.inr ⟨s, hs, hr⟩
      · -- fresh id: collect it and push its children
        rw [if_neg hc]
        have hcur : cur ∉ seen := by simpa using hc
        have hcurU : cur ∈ root :: prev.map (·.id) := hstackU cur (List.mem_cons_self _ _)
        have hndC : (cur :: seen).Nodup := List.nodup_cons.mpr ⟨hcur, hnd⟩
        have hseenC : ∀ s ∈ cur :: seen, s ∈ root :: prev.map (·.id) := by
          intro s hs
          rcases List.mem_cons.mp hs with rfl | hs
          · exact hcurU
          · exact hseenU s hs
        have hmeas : ((root :: prev.map (·.id)).dedup.length - (cur :: seen).length)
            * (prev.length + 1)
            + ((childIdsOf prev cur).reverse ++ rest).length ≤ fuel := by
          have hlen : seen.length + 1 ≤ (root :: prev.map (·.id)).dedup.length :=
            nodup_subset_length_le (cur :: seen) _ hndC hseenC
          have hkl : (childIdsOf prev cur).length ≤ prev.length :=
            childIdsOf_length_le prev cur
          have hsplit : ((root :: prev.map (·.id)).dedup.length - seen.length)
              * (prev.length + 1)
              = ((root :: prev.map (·.id)).dedup.length - (seen.length + 1))
                  * (prev.length + 1) + (prev.length + 1) := by
            have : (root :: prev.map (·.id)).dedup.length - seen.length
                = ((root :: prev.map (·.id)).dedup.length - (seen.length + 1)) + 1 := by
              omega
            rw [this, Nat.succ_mul]
          simp only [List.length_append, List.length_reverse, List.length_cons] at hfuel ⊢
          omega
        have hstackC : ∀ s ∈ (childIdsOf prev cur).reverse ++ rest,
            s ∈ root :: prev.map (·.id) := by
          intro s hs
          rcases List.mem_append.mp hs with hs | hs
          · exact List.mem_cons_of_mem _ (childIdsOf_subset prev cur s (List.mem_reverse.mp hs))
          · exact hstackU s (List.mem_cons_of_mem _ hs)
        have hclosedC : ∀ y ∈ cur :: seen, ∀ c ∈ childIdsOf prev y,
            c ∈ cur :: seen ∨ c ∈ (childIdsOf prev cur).reverse ++ rest := by
          intro y hy c hcc
          rcases List.mem_cons.mp hy with rfl | hy
          · exact Or.inr (List.mem_append.mpr (Or.inl (List.mem_reverse.mpr hcc)))
          · rcases hclosed y hy c hcc with h | h
            · exact Or.inl (List.mem_cons_of_mem _ h)
            · rcases List.mem_cons.mp h with rfl | h
              · exact Or.inl (List.mem_cons_self _ _)
              · exact Or.inr (List.mem_append.mpr (Or.inr h))
        rw [ih _ _ hmeas hstackC hseenC hndC hclosedC]
        have hhead := reach_head_iff prev cur x
        constructor
        · rintro (h | ⟨s, hs, hr⟩)
          · rcases List.mem_cons.mp h with rfl | h
            · exact Or.inr ⟨x, List.mem_cons_self _ _, Relation.ReflTransGen.refl⟩
            · exact Or.inl h
          · rcases List.mem_append.mp hs with hs | hs
            · exact Or.inr ⟨cur, List.mem_cons_self _ _,
                hhead.mpr (Or.inr ⟨s, List.mem_reverse.mp hs, hr⟩)⟩
            · exact Or.inr ⟨s, List.mem_cons_of_mem _ hs, hr⟩
        · rintro (h | ⟨s, hs, hr⟩)
          · exact Or.inl (List.mem_cons_of_mem _ h)
          · rcases List.mem_cons.mp hs with rfl | hs
            · rcases hhead.mp hr with rfl | ⟨c, hcc, hcr⟩
              · exact Or.inl (List.mem_cons_self _ _)
              · exact Or.inr ⟨c, List.mem_append.mpr (Or.inl (List.mem_reverse.mpr hcc)), hcr⟩
            · exact Or.inr ⟨s, List.mem_append.mpr (Or.inr hs), hr⟩

/-- The collected removal set is exactly the reachable set of the target. -/
theorem toRemove_spec (prev : List Row) (id : String) :
    ∀ x, x ∈ toRemove prev id ↔ Relation.ReflTransGen (stepRel prev) id x := by
  intro x
  unfold toRemove
  have hfuel : ((id :: prev.map (·.id)).dedup.length - ([] : List String).length)
      * (prev.length + 1) + ([id] : List String).length
      ≤ (prev.length + 2) * (prev.length + 2) := by
    have hd : (id :: prev.map (·.id)).dedup.length ≤ prev.length + 1 := by
      have := (List.dedup_sublist (id :: prev.map (·.id))).length_le
      simpa using this
    have := Nat.mul_le_mul hd (Nat.le_refl (prev.length + 1))
    simp only [List.length_nil, Nat.sub_zero, List.length_cons] at *
    nlinarith
  rw [dfsRemove_mem prev id _ [id] [] hfuel
    (by
      intro s hs
      have hsid : s = id := by simpa using hs
      subst hsid
      exact List.mem_cons_self _ _)
    (by simp) List.nodup_nil (by simp)]
  simp

/-- C4.  For every collection containing the target id, the local prune of
`deleteComment` removes exactly the target row and every row reachable
from it through transitive parent→child links, and nothing else — the
kept rows are exactly the unreachable ones, in their original order. -/
theorem deleteComment_cascade (prev : List Row) (id : String)
    (h : id ∈ prev.map (·.id)) :
    (∀ x, x ∈ toRemove prev id ↔ Relation.ReflTransGen (stepRel prev) id x)
    ∧ (∀ r, r ∈ pruneRows prev id ↔
        r ∈ prev ∧ ¬ Relation.ReflTransGen (stepRel prev) id r.id)
    ∧ (pruneRows prev id).Sublist prev := by
  have hpr : pruneRows prev id
      = prev.filter (fun r => !((toRemove prev id).contains r.id)) := by
    unfold pruneRows
    rw [if_pos (by simpa using h)]
  refine ⟨toRemove_spec prev id, ?_, ?_⟩
  · intro r
    rw [hpr, List.mem_filter]
    constructor
    · rintro ⟨hmem, hkeep⟩
      refine ⟨hmem, fun hreach => ?_⟩
      have : r.id ∈ toRemove prev id := (toRemove_spec prev id r.id).mpr hreach
      simp [this] at hkeep
    · rintro ⟨hmem, hreach⟩
      refine ⟨hmem, ?_⟩
      have : r.id ∉ toRemove prev id := fun hmem2 =>
        hreach ((toRemove_spec prev id r.id).mp hmem2)
      simpa using this
  · rw [hpr]
    exact List.filter_sublist prev

/-- Witness for C4: the spec's example — root `a` with children `b`, `c`
and grandchild `d` under `b`. -/
theorem deleteComment_cascade_witness :
    "a" ∈ ([⟨"a", "ph", none, "u", none, "A", 1⟩,
            ⟨"b", "ph", some "a", "u", none, "B", 2⟩,
            ⟨"c", "ph", some "a", "u", none, "C", 3⟩,
            ⟨"d", "ph", some "b", "u", none, "D", 4⟩] : List Row).map (·.id)
    ∧ ((∀ x, x ∈ toRemove
          [⟨"a", "ph", none, "u", none, "A", 1⟩,
           ⟨"b", "ph", some "a", "u", none, "B", 2⟩,
           ⟨"c", "ph", some "a", "u", none, "C", 3⟩,
           ⟨"d", "ph", some "b", "u", none, "D", 4⟩] "a"
          ↔ Relation.ReflTransGen (stepRel
              [⟨"a", "ph", none, "u", none, "A", 1⟩,
               ⟨"b", "ph", some "a", "u", none, "B", 2⟩,
               ⟨"c", "ph", some "a", "u", none, "C", 3⟩,
               ⟨"d", "ph", some "b", "u", none, "D", 4⟩]) "a" x)
      ∧ (∀ r, r ∈ pruneRows
          [⟨"a", "ph", none, "u", none, "A", 1⟩,
           ⟨"b", "ph", some "a", "u", none, "B", 2⟩,
           ⟨"c", "ph", some "a", "u", none, "C", 3⟩,
           ⟨"d", "ph", some "b", "u", none, "D", 4⟩] "a"
          ↔ r ∈ [⟨"a", "ph", none, "u", none, "A", 1⟩,
                 ⟨"b", "ph", some "a", "u", none, "B", 2⟩,
                 ⟨"c", "ph", some "a", "u", none, "C", 3⟩,
                 ⟨"d", "ph", some "b", "u", none, "D", 4⟩]
            ∧ ¬ Relation.ReflTransGen (stepRel
                [⟨"a", "ph", none, "u", none, "A", 1⟩,
                 ⟨"b", "ph", some "a", "u", none, "B", 2⟩,
                 ⟨"c", "ph", some "a", "u", none, "C", 3⟩,
                 ⟨"d", "ph", some "b", "u", none, "D", 4⟩]) "a" r.id)
      ∧ (pruneRows
          [⟨"a", "ph", none, "u", none, "A", 1⟩,
           ⟨"b", "ph", some "a", "u", none, "B", 2⟩,
           ⟨"c", "ph", some "a", "u", none, "C", 3⟩,
           ⟨"d", "ph", some "b", "u", none, "D", 4⟩] "a").Sublist
          [⟨"a", "ph", none, "u", none, "A", 1⟩,
           ⟨"b", "ph", some "a", "u", none, "B", 2⟩,
           ⟨"c", "ph", some "a", "u", none, "C", 3⟩,
           ⟨"d", "ph", some "b", "u", none, "D", 4⟩]) :=
  ⟨by decide, deleteComment_cascade _ _ (by decide)⟩

/-! ## C1 / C9 — structural lemmas about the built forest -/

theorem flattenList_eq_flatMap : ∀ l : List Node, flattenList l = l.flatMap flattenNode
  | [] => rfl
  | n :: t => by
    rw [List.flatMap_cons, ← flattenList_eq_flatMap t]
    rfl

theorem sortEach_eq_map : ∀ l : List Node, sortEach l = l.map sortNode
  | [] => rfl
  | n :: t => by
    rw [List.map_cons, ← sortEach_eq_map t]
    rfl

theorem row_buildNodeRaw (rows : List Row) : ∀ (fuel : Nat) (r : Row),
    (buildNodeRaw rows fuel r).row = r
  | 0, r => rfl
  | _ + 1, r => rfl

theorem row_sortNode : ∀ n : Node, (sortNode n).row = n.row
  | .mk _ _ => rfl

theorem replies_sortNode : ∀ n : Node,
    (sortNode n).replies = ((sortEach n.replies).mergeSort nodeLE)
  | .mk _ _ => rfl

/-- Pointwise permutations lift through `flatMap`. -/
theorem flatMap_perm_congr {α β : Type} : ∀ (l : List α) (f g : α → List β),
    (∀ a ∈ l, (f a).Perm (g a)) → (l.flatMap f).Perm (l.flatMap g)
  | [], _, _, _ => List.Perm.refl _
  | a :: t, f, g, h => by
    rw [List.flatMap_cons, List.flatMap_cons]
    exact (h a (List.mem_cons_self _ _)).append
      (flatMap_perm_congr t f g (fun b hb => h b (List.mem_cons_of_mem _ hb)))

/-- Pointwise equal functions give equal `flatMap`s. -/
theorem flatMap_congr_fun {α β : Type} : ∀ (l : List α) (f g : α → List β),
    (∀ a ∈ l, f a = g a) → l.flatMap f = l.flatMap g
  | [], _, _, _ => rfl
  | a :: t, f, g, h => by
    rw [List.flatMap_cons, List.flatMap_cons, h a (List.mem_cons_self _ _),
      flatMap_congr_fun t f g (fun b hb => h b (List.mem_cons_of_mem _ hb))]

/-- Counts through `flatMap` agree when they agree argumentwise. -/
theorem count_flatMap_congr : ∀ (ks : List Nat) (f g : Nat → List Row) (x y : Row),
    (∀ k ∈ ks, List.count x (f k) = List.count y (g k)) →
    List.count x (ks.flatMap f) = List.count y (ks.flatMap g)
  | [], _, _, _, _, _ => rfl
  | k :: t, f, g, x, y, h => by
    rw [List.flatMap_cons, List.flatMap_cons, List.count_append, List.count_append,
      h k (List.mem_cons_self _ _),
      count_flatMap_congr t f g x y (fun j hj => h j (List.mem_cons_of_mem _ hj))]

/-- Recursively sorting a node permutes its flattened rows. -/
theorem flattenNode_sortNode_perm :
    ∀ (k : Nat) (n : Node), sizeOf n ≤ k →
      (flattenNode (sortNode n)).Perm (flattenNode n) := by
  intro k
  induction k with
  | zero =>
    intro n hn
    exfalso
    cases n with
    | mk r kids => simp at hn
  | succ k ih =>
    intro n hn
    cases n with
    | mk r kids =>
      show (flattenNode (.mk r ((sortEach kids).mergeSort nodeLE))).Perm (flattenNode (.mk r kids))
      show (r :: flattenList ((sortEach kids).mergeSort nodeLE)).Perm (r :: flattenList kids)
      refine List.Perm.cons r ?_
      have h1 : (flattenList ((sortEach kids).mergeSort nodeLE)).Perm
          (flattenList (sortEach kids)) := by
        rw [flattenList_eq_flatMap, flattenList_eq_flatMap]
        exact List.Perm.flatMap_right flattenNode (List.mergeSort_perm _ _)
      have h2 : (flattenList (sortEach kids)).Perm (flattenList kids) := by
        rw [flattenList_eq_flatMap, flattenList_eq_flatMap, sortEach_eq_map,
          List.flatMap_map]
        refine flatMap_perm_congr kids _ _ ?_
        intro c hc
        refine ih c ?_
        have hlt : sizeOf c < sizeOf kids := List.sizeOf_lt_of_mem hc
        have : sizeOf (Node.mk r kids) = 1 + sizeOf r + sizeOf kids := by simp
        omega
      exact h1.trans h2

/-- Recursively sorting a forest permutes its flattened rows. -/
theorem flattenList_sortForest_perm (l : List Node) :
    (flattenList (sortForest l)).Perm (flattenList l) := by
  unfold sortForest
  have h1 : (flattenList ((sortEach l).mergeSort nodeLE)).Perm (flattenList (sortEach l)) := by
    rw [flattenList_eq_flatMap, flattenList_eq_flatMap]
    exact List.Perm.flatMap_right flattenNode (List.mergeSort_perm _ _)
  have h2 : (flattenList (sortEach l)).Perm (flattenList l) := by
    rw [flattenList_eq_flatMap, flattenList_eq_flatMap, sortEach_eq_map, List.flatMap_map]
    refine flatMap_perm_congr l _ _ ?_
    intro c hc
    exact flattenNode_sortNode_perm (sizeOf l) c (Nat.le_of_lt (List.sizeOf_lt_of_mem hc))
  exact h1.trans h2

/-! ### Levels of the linked structure, under the collection invariants

The spec's data invariants — unique comment ids, and parent links free of
cycles because a comment can only reply to an already-existing comment —
enter as hypotheses: `hND` (distinct ids) and a depth measure `d` that
strictly grows along resolvable parent→child links and is bounded by the
collection size (such a measure exists exactly when the resolvable links
are acyclic). -/

theorem rootsOf_eq_filter (rows : List Row) (hND : (rows.map (·.id)).Nodup) :
    rootsOf rows = rows.filter (fun r => !(hasParent rows r)) := by
  unfold rootsOf
  rw [mapValues_eq_self rows hND]

theorem childrenOf_eq_filter (rows : List Row) (hND : (rows.map (·.id)).Nodup)
    (p : String) :
    childrenOf rows p = rows.filter (fun r => hasParent rows r && r.parent_id == some p) := by
  unfold childrenOf
  rw [mapValues_eq_self rows hND]

theorem mem_childrenOf (rows : List Row) (hND : (rows.map (·.id)).Nodup)
    (p : String) (r : Row) (h : r ∈ childrenOf rows p) :
    r ∈ rows ∧ hasParent rows r = true ∧ r.parent_id = some p := by
  rw [childrenOf_eq_filter rows hND p] at h
  obtain ⟨hmem, hpred⟩ := List.mem_filter.mp h
  rw [Bool.and_eq_true] at hpred
  exact ⟨hmem, hpred.1, by simpa using hpred.2⟩

theorem level_subset (rows : List Row) (hND : (rows.map (·.id)).Nodup) :
    ∀ (k : Nat), ∀ r ∈ level rows k, r ∈ rows := by
  intro k
  induction k with
  | zero =>
    intro r hr
    rw [show level rows 0 = rootsOf rows from rfl, rootsOf_eq_filter rows hND] at hr
    exact (List.mem_filter.mp hr).1
  | succ k ih =>
    intro r hr
    rw [show level rows (k + 1) = (level rows k).flatMap (fun q => childrenOf rows q.id)
      from rfl] at hr
    obtain ⟨q, _, hrq⟩ := List.mem_flatMap.mp hr
    exact (mem_childrenOf rows hND _ r hrq).1

theorem level_depth (rows : List Row) (hND : (rows.map (·.id)).Nodup)
    (d : String → Nat)
    (hEdge : ∀ r ∈ rows, hasParent rows r = true → ∀ p, r.parent_id = some p → d p < d r.id) :
    ∀ (k : Nat), ∀ r ∈ level rows k, k ≤ d r.id := by
  intro k
  induction k with
  | zero => intro r _; exact Nat.zero_le _
  | succ k ih =>
    intro r hr
    rw [show level rows (k + 1) = (level rows k).flatMap (fun q => childrenOf rows q.id)
      from rfl] at hr
    obtain ⟨q, hq, hrq⟩ := List.mem_flatMap.mp hr
    obtain ⟨hrmem, hhp, hpid⟩ := mem_childrenOf rows hND _ r hrq
    have h1 : d q.id < d r.id := hEdge r hrmem hhp q.id hpid
    have h2 : k ≤ d q.id := ih q hq
    omega

theorem level_vanishes (rows : List Row) (hND : (rows.map (·.id)).Nodup)
    (d : String → Nat)
    (hEdge : ∀ r ∈ rows, hasParent rows r = true → ∀ p, r.parent_id = some p → d p < d r.id)
    (hBound : ∀ r ∈ rows, d r.id < rows.length) :
    ∀ (k : Nat), rows.length ≤ k → level rows k = [] := by
  intro k hk
  rw [List.eq_nil_iff_forall_not_mem]
  intro r hr
  have h1 : k ≤ d r.id := level_depth rows hND d hEdge k r hr
  have h2 : d r.id < rows.length := hBound r (level_subset rows hND k r hr)
  omega

theorem parent_row_of_hasParent (rows : List Row) (x : Row)
    (h : hasParent rows x = true) : ∃ prow ∈ rows, x.parent_id = some prow.id := by
  unfold hasParent at h
  cases hpid : x.parent_id with
  | none => rw [hpid] at h; exact absurd h (by simp)
  | some p =>
    rw [hpid, Bool.and_eq_true] at h
    obtain ⟨q, hq, hqid⟩ := List.any_eq_true.mp h.2
    refine ⟨q, hq, ?_⟩
    have hqp : q.id = p := by simpa using hqid
    rw [hqp]

/-- Count of a row in a filtered list when the row fails the filter. -/
theorem count_filter_neg {p : Row → Bool} {a : Row} {l : List Row}
    (h : p a = false) : List.count a (l.filter p) = 0 := by
  rw [List.count_eq_zero]
  intro hmem
  have := (List.mem_filter.mp hmem).2
  rw [h] at this
  exact absurd this (by simp)

theorem count_level_zero_root (rows : List Row) (hND : (rows.map (·.id)).Nodup)
    (x : Row) (hx : x ∈ rows) (hroot : hasParent rows x = false) :
    List.count x (level rows 0) = 1 := by
  show List.count x (rootsOf rows) = 1
  rw [rootsOf_eq_filter rows hND,
    @List.count_filter Row _ _ (fun r => !(hasParent rows r)) x rows
      (by simp [hroot])]
  exact List.count_eq_one_of_mem (List.Nodup.of_map _ hND) hx

theorem count_level_zero_nonroot (rows : List Row) (hND : (rows.map (·.id)).Nodup)
    (x : Row) (hpar : hasParent rows x = true) :
    List.count x (level rows 0) = 0 := by
  show List.count x (rootsOf rows) = 0
  rw [rootsOf_eq_filter rows hND]
  exact count_filter_neg (by rw [hpar]; rfl)

theorem count_children_at (rows : List Row) (hND : (rows.map (·.id)).Nodup)
    (x q prow : Row) (hx : x ∈ rows) (hq : q ∈ rows) (hprow : prow ∈ rows)
    (hpar : hasParent rows x = true) (hpid : x.parent_id = some prow.id) :
    List.count x (childrenOf rows q.id) = if q = prow then 1 else 0 := by
  rw [childrenOf_eq_filter rows hND]
  by_cases hqp : q = prow
  · subst hqp
    rw [if_pos rfl,
      @List.count_filter Row _ _ (fun r => hasParent rows r && r.parent_id == some q.id)
        x rows (by simp [hpar, hpid])]
    exact List.count_eq_one_of_mem (List.Nodup.of_map _ hND) hx
  · rw [if_neg hqp]
    refine count_filter_neg ?_
    have hne : prow.id ≠ q.id := fun he =>
      hqp (List.inj_on_of_nodup_map hND hq hprow he.symm)
    rw [hpar, hpid]
    simp only [Bool.true_and]
    rw [beq_eq_false_iff_ne]
    intro hcon
    exact hne (Option.some.injEq _ _ ▸ hcon :  prow.id = q.id)

theorem count_flatMap_children (rows : List Row) (hND : (rows.map (·.id)).Nodup)
    (x prow : Row) (hx : x ∈ rows) (hprow : prow ∈ rows)
    (hpar : hasParent rows x = true) (hpid : x.parent_id = some prow.id) :
    ∀ (L : List Row), (∀ q ∈ L, q ∈ rows) →
      List.count x (L.flatMap (fun q => childrenOf rows q.id)) = List.count prow L := by
  intro L
  induction L with
  | nil => intro _; rfl
  | cons q t ih =>
    intro hL
    rw [List.flatMap_cons, List.count_append, List.count_cons,
      count_children_at rows hND x q prow hx (hL q (List.mem_cons_self _ _)) hprow hpar hpid,
      ih (fun a ha => hL a (List.mem_cons_of_mem _ ha))]
    by_cases hqp : q = prow
    · subst hqp
      simp
      omega
    · have hbeq : (q == prow) = false := by simpa using hqp
      rw [if_neg hqp, hbeq]
      simp

theorem count_full_root (rows : List Row) (hND : (rows.map (·.id)).Nodup)
    (x : Row) (hx : x ∈ rows) (hroot : hasParent rows x = false) :
    List.count x ((List.range (rows.length + 1)).flatMap (level rows)) = 1 := by
  rw [List.range_succ_eq_map, List.flatMap_cons, List.flatMap_map, List.count_append,
    count_level_zero_root rows hND x hx hroot]
  have hzero : List.count x ((List.range rows.length).flatMap
      (fun k => level rows (Nat.succ k))) = 0 := by
    rw [List.count_eq_zero]
    intro hmem
    obtain ⟨k, _, hk⟩ := List.mem_flatMap.mp hmem
    rw [show level rows (Nat.succ k) = (level rows k).flatMap (fun q => childrenOf rows q.id)
      from rfl] at hk
    obtain ⟨q, _, hq⟩ := List.mem_flatMap.mp hk
    have := (mem_childrenOf rows hND _ x hq).2.1
    rw [hroot] at this
    exact absurd this (by simp)
  rw [hzero]

theorem count_full_nonroot (rows : List Row) (hND : (rows.map (·.id)).Nodup)
    (d : String → Nat)
    (hEdge : ∀ r ∈ rows, hasParent rows r = true → ∀ p, r.parent_id = some p → d p < d r.id)
    (hBound : ∀ r ∈ rows, d r.id < rows.length)
    (x prow : Row) (hx : x ∈ rows) (hprow : prow ∈ rows)
    (hpar : hasParent rows x = true) (hpid : x.parent_id = some prow.id) :
    List.count x ((List.range (rows.length + 1)).flatMap (level rows))
      = List.count prow ((List.range (rows.length + 1)).flatMap (level rows)) := by
  have hLHS : List.count x ((List.range (rows.length + 1)).flatMap (level rows))
      = List.count prow ((List.range rows.length).flatMap (level rows)) := by
    rw [List.range_succ_eq_map, List.flatMap_cons, List.flatMap_map, List.count_append,
      count_level_zero_nonroot rows hND x hpar]
    have hmid : List.count x ((List.range rows.length).flatMap
        (fun k => level rows (Nat.succ k)))
        = List.count prow ((List.range rows.length).flatMap (level rows)) := by
      refine count_flatMap_congr _ _ _ _ _ ?_
      intro k _
      rw [show level rows (Nat.succ k) = (level rows k).flatMap (fun q => childrenOf rows q.id)
        from rfl]
      exact count_flatMap_children rows hND x prow hx hprow hpar hpid (level rows k)
        (level_subset rows hND k)
    rw [hmid]
    omega
  have hRHS : List.count prow ((List.range (rows.length + 1)).flatMap (level rows))
      = List.count prow ((List.range rows.length).flatMap (level rows)) := by
    rw [List.range_succ, List.flatMap_append, List.count_append, List.flatMap_singleton,
      level_vanishes rows hND d hEdge hBound rows.length (Nat.le_refl _)]
    rfl
  rw [hLHS, hRHS]

theorem count_full_eq_one (rows : List Row) (hND : (rows.map (·.id)).Nodup)
    (d : String → Nat)
    (hEdge : ∀ r ∈ rows, hasParent rows r = true → ∀ p, r.parent_id = some p → d p < d r.id)
    (hBound : ∀ r ∈ rows, d r.id < rows.length) :
    ∀ (m : Nat) (x : Row), x ∈ rows → d x.id ≤ m →
      List.count x ((List.range (rows.length + 1)).flatMap (level rows)) = 1 := by
  intro m
  induction m with
  | zero =>
    intro x hx hdx
    by_cases hpar : hasParent rows x = true
    · obtain ⟨prow, hprow, hpid⟩ := parent_row_of_hasParent rows x hpar
      have := hEdge x hx hpar prow.id hpid
      omega
    · exact count_full_root rows hND x hx (by simpa using hpar)
  | succ m ih =>
    intro x hx hdx
    by_cases hpar : hasParent rows x = true
    · obtain ⟨prow, hprow, hpid⟩ := parent_row_of_hasParent rows x hpar
      have hstep := hEdge x hx hpar prow.id hpid
      rw [count_full_nonroot rows hND d hEdge hBound x prow hx hprow hpar hpid]
      exact ih prow hprow (by omega)
    · exact count_full_root rows hND x hx (by simpa using hpar)

/-- The levels, concatenated, are a permutation of the collection. -/
theorem levels_perm (rows : List Row) (hND : (rows.map (·.id)).Nodup)
    (d : String → Nat)
    (hEdge : ∀ r ∈ rows, hasParent rows r = true → ∀ p, r.parent_id = some p → d p < d r.id)
    (hBound : ∀ r ∈ rows, d r.id < rows.length) :
    ((List.range (rows.length + 1)).flatMap (level rows)).Perm rows := by
  rw [List.perm_iff_count]
  intro a
  by_cases ha : a ∈ rows
  · rw [count_full_eq_one rows hND d hEdge hBound (d a.id) a ha (Nat.le_refl _),
      List.count_eq_one_of_mem (List.Nodup.of_map _ hND) ha]
  · rw [List.count_eq_zero.mpr ha, List.count_eq_zero]
    intro hmem
    obtain ⟨k, _, hk⟩ := List.mem_flatMap.mp hmem
    exact ha (level_subset rows hND k a hk)

/-- Splitting the count of a `flatMap` that conses each seed onto its
expansion. -/
theorem count_flatMap_cons_split (x : Row) :
    ∀ (L : List Row) (g : Row → List Row),
      List.count x (L.flatMap (fun r => r :: g r))
        = List.count x L + List.count x (L.flatMap g) := by
  intro L
  induction L with
  | nil => intro g; rfl
  | cons r t ih =>
    intro g
    rw [List.flatMap_cons, List.flatMap_cons, List.count_append, List.count_cons,
      List.count_append, List.count_cons, ih g]
    omega

/-- Counting the flattened fuelled expansion of one level against the
following levels: the expansion of level `j` with `fuel` steps counts the
same as levels `j, j+1, …, j+fuel` concatenated. -/
theorem count_flatten_level (rows : List Row) :
    ∀ (fuel j : Nat) (x : Row),
      List.count x ((level rows j).flatMap
          (fun r => flattenNode (buildNodeRaw rows fuel r)))
        = List.count x ((List.range (fuel + 1)).flatMap (fun k => level rows (j + k))) := by
  intro fuel
  induction fuel with
  | zero =>
    intro j x
    have h1 : (level rows j).flatMap (fun r => flattenNode (buildNodeRaw rows 0 r))
        = level rows j := by
      rw [flatMap_congr_fun (level rows j)
        (fun r => flattenNode (buildNodeRaw rows 0 r)) (fun r => [r]) (fun r _ => rfl)]
      exact List.flatMap_singleton' _
    rw [h1, show List.range 1 = [0] from rfl, List.flatMap_singleton, Nat.add_zero]
  | succ fuel ih =>
    intro j x
    have hstep : ∀ r : Row, flattenNode (buildNodeRaw rows (fuel + 1) r)
        = r :: (childrenOf rows r.id).flatMap (fun c => flattenNode (buildNodeRaw rows fuel c)) := by
      intro r
      show r :: flattenList ((childrenOf rows r.id).map (buildNodeRaw rows fuel)) = _
      rw [flattenList_eq_flatMap, List.flatMap_map]
    have hL1 : (level rows j).flatMap (fun r => flattenNode (buildNodeRaw rows (fuel + 1) r))
        = (level rows j).flatMap (fun r =>
            r :: (childrenOf rows r.id).flatMap (fun c => flattenNode (buildNodeRaw rows fuel c))) :=
      flatMap_congr_fun _ _ _ (fun r _ => hstep r)
    rw [hL1, count_flatMap_cons_split]
    have hL2 : (level rows j).flatMap (fun r =>
          (childrenOf rows r.id).flatMap (fun c => flattenNode (buildNodeRaw rows fuel c)))
        = (level rows (j + 1)).flatMap (fun c => flattenNode (buildNodeRaw rows fuel c)) := by
      rw [← List.flatMap_assoc]
      rfl
    rw [hL2, ih (j + 1) x]
    have hR : List.count x ((List.range (fuel + 1 + 1)).flatMap (fun k => level rows (j + k)))
        = List.count x (level rows (j + 0))
          + List.count x ((List.range (fuel + 1)).flatMap
              (fun k => level rows (j + Nat.succ k))) := by
      rw [List.range_succ_eq_map, List.flatMap_cons, List.flatMap_map, List.count_append]
    rw [hR, Nat.add_zero]
    have hshift : List.count x ((List.range (fuel + 1)).flatMap
        (fun k => level rows (j + 1 + k)))
        = List.count x ((List.range (fuel + 1)).flatMap
          (fun k => level rows (j + Nat.succ k))) := by
      refine count_flatMap_congr _ _ _ _ _ ?_
      intro k _
      have harith : j + 1 + k = j + Nat.succ k := by omega
      rw [harith]
    rw [hshift]
    simp

/-- C1.  Under the spec's collection invariants (unique ids, acyclic
resolvable parent links witnessed by a bounded depth measure), the forest
built by `buildTree` contains every input record exactly once — its
flattening is a permutation of the input — and a record whose parent id
is non-null but absent from the collection appears as a root rather than
being dropped. -/
theorem buildTree_complete (rows : List Row)
    (hND : (rows.map (·.id)).Nodup)
    (d : String → Nat)
    (hEdge : ∀ r ∈ rows, hasParent rows r = true → ∀ p, r.parent_id = some p → d p < d r.id)
    (hBound : ∀ r ∈ rows, d r.id < rows.length) :
    (flattenList (buildTree rows)).Perm rows
    ∧ (∀ r ∈ rows, ∀ p, r.parent_id = some p → p ∉ rows.map (·.id) →
        r ∈ (buildTree rows).map Node.row) := by
  constructor
  · have hperm1 : (flattenList (buildTree rows)).Perm (flattenList (buildRaw rows)) :=
      flattenList_sortForest_perm _
    have hcount : ∀ x : Row, List.count x (flattenList (buildRaw rows))
        = List.count x ((List.range (rows.length + 1)).flatMap (level rows)) := by
      intro x
      unfold buildRaw
      rw [flattenList_eq_flatMap, List.flatMap_map]
      have h0 := count_flatten_level rows rows.length 0 x
      rw [show level rows 0 = rootsOf rows from rfl] at h0
      rw [h0]
      refine count_flatMap_congr _ _ _ _ _ ?_
      intro k _
      rw [Nat.zero_add]
    have hperm2 : (flattenList (buildRaw rows)).Perm
        ((List.range (rows.length + 1)).flatMap (level rows)) :=
      List.perm_iff_count.mpr (fun a => hcount a)
    exact (hperm1.trans hperm2).trans (levels_perm rows hND d hEdge hBound)
  · intro r hr p hpid hnotin
    have hany : (rows.any fun q => q.id == p) = false := by
      rw [List.any_eq_false]
      intro q hq hbeq
      exact hnotin (List.mem_map.mpr ⟨q, hq, by simpa using hbeq⟩)
    have hroot : hasParent rows r = false := by
      unfold hasParent
      rw [hpid]
      simp [hany]
    have hrroots : r ∈ rootsOf rows := by
      rw [rootsOf_eq_filter rows hND]
      exact List.mem_filter.mpr ⟨hr, by rw [hroot]; rfl⟩
    have h1 : buildNodeRaw rows rows.length r ∈ buildRaw rows :=
      List.mem_map.mpr ⟨r, hrroots, rfl⟩
    have h2 : sortNode (buildNodeRaw rows rows.length r) ∈ sortEach (buildRaw rows) := by
      rw [sortEach_eq_map]
      exact List.mem_map.mpr ⟨_, h1, rfl⟩
    have h3 : sortNode (buildNodeRaw rows rows.length r) ∈ buildTree rows := by
      unfold buildTree sortForest
      exact List.mem_mergeSort.mpr h2
    refine List.mem_map.mpr ⟨_, h3, ?_⟩
    rw [row_sortNode, row_buildNodeRaw]

/-- Witness for C1: a root, a child and an orphan (its parent id is
missing from the collection), with an explicit depth measure. -/
theorem buildTree_complete_witness :
    (([⟨"a", "ph", none, "u", none, "A", 10⟩,
       ⟨"b", "ph", some "a", "u", none, "B", 5⟩,
       ⟨"o", "ph", some "zzz", "u", none, "O", 1⟩] : List Row).map (·.id)).Nodup
    ∧ (∀ r ∈ ([⟨"a", "ph", none, "u", none, "A", 10⟩,
       ⟨"b", "ph", some "a", "u", none, "B", 5⟩,
       ⟨"o", "ph", some "zzz", "u", none, "O", 1⟩] : List Row),
        hasParent [⟨"a", "ph", none, "u", none, "A", 10⟩,
          ⟨"b", "ph", some "a", "u", none, "B", 5⟩,
          ⟨"o", "ph", some "zzz", "u", none, "O", 1⟩] r = true →
        ∀ p, r.parent_id = some p →
          (if p = "b" then 1 else 0) < (if r.id = "b" then 1 else 0))
    ∧ ((flattenList (buildTree
          [⟨"a", "ph", none, "u", none, "A", 10⟩,
           ⟨"b", "ph", some "a", "u", none, "B", 5⟩,
           ⟨"o", "ph", some "zzz", "u", none, "O", 1⟩])).Perm
          [⟨"a", "ph", none, "u", none, "A", 10⟩,
           ⟨"b", "ph", some "a", "u", none, "B", 5⟩,
           ⟨"o", "ph", some "zzz", "u", none, "O", 1⟩]
      ∧ (∀ r ∈ ([⟨"a", "ph", none, "u", none, "A", 10⟩,
           ⟨"b", "ph", some "a", "u", none, "B", 5⟩,
           ⟨"o", "ph", some "zzz", "u", none, "O", 1⟩] : List Row),
          ∀ p, r.parent_id = some p →
          p ∉ ([⟨"a", "ph", none, "u", none, "A", 10⟩,
           ⟨"b", "ph", some "a", "u", none, "B", 5⟩,
           ⟨"o", "ph", some "zzz", "u", none, "O", 1⟩] : List Row).map (·.id) →
          r ∈ (buildTree
            [⟨"a", "ph", none, "u", none, "A", 10⟩,
             ⟨"b", "ph", some "a", "u", none, "B", 5⟩,
             ⟨"o", "ph", some "zzz", "u", none, "O", 1⟩]).map Node.row)) :=
  ⟨by decide, by decide,
    buildTree_complete
      [⟨"a", "ph", none, "u", none, "A", 10⟩,
       ⟨"b", "ph", some "a", "u", none, "B", 5⟩,
       ⟨"o", "ph", some "zzz", "u", none, "O", 1⟩]
      (by decide) (fun s => if s = "b" then 1 else 0) (by decide) (by decide)⟩

/-! ### C9 — chronological, stable sibling ordering -/

theorem nodeLE_trans : ∀ a b c : Node,
    nodeLE a b = true → nodeLE b c = true → nodeLE a c = true := by
  intro a b c hab hbc
  unfold nodeLE at *
  rw [decide_eq_true_iff] at *
  omega

theorem nodeLE_total : ∀ a b : Node, (nodeLE a b || nodeLE b a) = true := by
  intro a b
  unfold nodeLE
  rcases Nat.le_total a.row.created_at b.row.created_at with h | h <;> simp [h]

/-- The sorted image of a row list keyed through a row-preserving builder
is chronologically ordered, and filtering it at any timestamp recovers
exactly the rows of the original list with that timestamp, in original
order (stability of the sort). -/
theorem chrono_mergeSort (exp : List Row) (build : Row → Node)
    (hrow : ∀ q ∈ exp, (build q).row = q) :
    List.Pairwise (fun a b => a.row.created_at ≤ b.row.created_at)
      ((exp.map build).mergeSort nodeLE)
    ∧ ∀ t, (((exp.map build).mergeSort nodeLE).map Node.row).filter
          (fun q => q.created_at == t)
        = exp.filter (fun q => q.created_at == t) := by
  constructor
  · have h := List.sorted_mergeSort nodeLE_trans nodeLE_total (exp.map build)
    exact h.imp (fun hab => by
      have := hab
      unfold nodeLE at this
      exact decide_eq_true_iff.mp this)
  · intro t
    have hfil : ((exp.map build).mergeSort nodeLE).filter (fun n => n.row.created_at == t)
        = (exp.map build).filter (fun n => n.row.created_at == t) := by
      have hpw : List.Pairwise (fun a b => nodeLE a b = true)
          ((exp.map build).filter (fun n => n.row.created_at == t)) := by
        refine List.pairwise_of_forall_mem_list ?_
        intro a ha b hb
        have hat : (a.row.created_at == t) = true := (List.mem_filter.mp ha).2
        have hbt : (b.row.created_at == t) = true := (List.mem_filter.mp hb).2
        unfold nodeLE
        rw [decide_eq_true_iff]
        rw [beq_iff_eq] at hat hbt
        omega
      have hsub : ((exp.map build).filter (fun n => n.row.created_at == t)).Sublist
          ((exp.map build).mergeSort nodeLE) :=
        List.sublist_mergeSort nodeLE_trans nodeLE_total hpw (List.filter_sublist _)
      have hsub2 : ((exp.map build).filter (fun n => n.row.created_at == t)).Sublist
          (((exp.map build).mergeSort nodeLE).filter (fun n => n.row.created_at == t)) := by
        have h1 := List.Sublist.filter (fun n => n.row.created_at == t) hsub
        rw [List.filter_eq_self.mpr
          (fun a ha => (List.mem_filter.mp ha).2)] at h1
        exact h1
      have hlen : (((exp.map build).mergeSort nodeLE).filter
            (fun n => n.row.created_at == t)).length
          = ((exp.map build).filter (fun n => n.row.created_at == t)).length :=
        ((List.mergeSort_perm (exp.map build) nodeLE).filter _).length_eq
      exact (hsub2.eq_of_length hlen.symm).symm
    rw [List.filter_map]
    have hcomp : List.filter ((fun q => q.created_at == t) ∘ Node.row)
          ((exp.map build).mergeSort nodeLE)
        = List.filter (fun n => n.row.created_at == t) ((exp.map build).mergeSort nodeLE) :=
      List.filter_congr (fun a _ => rfl)
    rw [hcomp, hfil, List.filter_map, List.map_map]
    have hpred : ∀ q ∈ exp, ((fun n => n.row.created_at == t) ∘ build) q
        = (fun q => q.created_at == t) q := by
      intro q hq
      show ((build q).row.created_at == t) = (q.created_at == t)
      rw [hrow q hq]
    rw [List.filter_congr hpred]
    have hid : ∀ q ∈ exp.filter (fun q => q.created_at == t),
        (Node.row ∘ build) q = q := by
      intro q hq
      exact hrow q (List.mem_of_mem_filter hq)
    rw [List.map_congr_left hid]
    simp

theorem eachChrono_iff (rows : List Row) :
    ∀ l : List Node, EachChrono rows l ↔ ∀ n ∈ l, NodeChrono rows n
  | [] => by
    constructor
    · intro _ n hn
      exact absurd hn (List.not_mem_nil n)
    · intro _
      trivial
  | n :: t => by
    show NodeChrono rows n ∧ EachChrono rows t ↔ _
    rw [eachChrono_iff rows t]
    constructor
    · rintro ⟨h1, h2⟩ m hm
      rcases List.mem_cons.mp hm with rfl | hm
      · exact h1
      · exact h2 m hm
    · intro h
      exact ⟨h n (List.mem_cons_self _ _), fun m hm => h m (List.mem_cons_of_mem _ hm)⟩

/-- Below the top level, every node produced by building (with adequate
fuel) and recursively sorting satisfies the chronological-and-stable
property at its replies. -/
theorem nodeChrono_build (rows : List Row) (hND : (rows.map (·.id)).Nodup)
    (d : String → Nat)
    (hEdge : ∀ r ∈ rows, hasParent rows r = true → ∀ p, r.parent_id = some p → d p < d r.id)
    (hBound : ∀ r ∈ rows, d r.id < rows.length) :
    ∀ (fuel : Nat) (r : Row), r ∈ rows → rows.length - d r.id ≤ fuel →
      NodeChrono rows (sortNode (buildNodeRaw rows fuel r)) := by
  intro fuel
  induction fuel with
  | zero =>
    intro r hr hf
    have := hBound r hr
    omega
  | succ fuel ih =>
    intro r hr hf
    show NodeChrono rows (Node.mk r
      ((sortEach ((childrenOf rows r.id).map (buildNodeRaw rows fuel))).mergeSort nodeLE))
    rw [sortEach_eq_map, List.map_map]
    have hrow : ∀ q ∈ childrenOf rows r.id,
        ((sortNode ∘ buildNodeRaw rows fuel) q).row = q := by
      intro q _
      show (sortNode (buildNodeRaw rows fuel q)).row = q
      rw [row_sortNode, row_buildNodeRaw]
    obtain ⟨hpair, hstab⟩ := chrono_mergeSort (childrenOf rows r.id) _ hrow
    refine ⟨hpair, hstab, ?_⟩
    rw [eachChrono_iff]
    intro n hn
    rw [List.mem_mergeSort] at hn
    obtain ⟨q, hq, rfl⟩ := List.mem_map.mp hn
    obtain ⟨hqrows, hqpar, hqpid⟩ := mem_childrenOf rows hND _ q hq
    have hd : d r.id < d q.id := hEdge q hqrows hqpar r.id hqpid
    exact ih q hqrows (by omega)

/-- C9.  Under the collection invariants, every sibling sequence of the
built forest — the root sequence and every replies list — is sorted by
creation timestamp ascending, and records with equal timestamps keep
their relative order from the input collection: filtering a sibling list
at any timestamp reproduces the corresponding slice of the input order
(stable sort). -/
theorem buildTree_chrono (rows : List Row)
    (hND : (rows.map (·.id)).Nodup)
    (d : String → Nat)
    (hEdge : ∀ r ∈ rows, hasParent rows r = true → ∀ p, r.parent_id = some p → d p < d r.id)
    (hBound : ∀ r ∈ rows, d r.id < rows.length) :
    List.Pairwise (fun a b => a.row.created_at ≤ b.row.created_at) (buildTree rows)
    ∧ (∀ t, ((buildTree rows).map Node.row).filter (fun q => q.created_at == t)
        = (rootsOf rows).filter (fun q => q.created_at == t))
    ∧ EachChrono rows (buildTree rows) := by
  unfold buildTree sortForest buildRaw
  rw [sortEach_eq_map, List.map_map]
  have hrow : ∀ q ∈ rootsOf rows,
      ((sortNode ∘ buildNodeRaw rows rows.length) q).row = q := by
    intro q _
    show (sortNode (buildNodeRaw rows rows.length q)).row = q
    rw [row_sortNode, row_buildNodeRaw]
  obtain ⟨hpair, hstab⟩ := chrono_mergeSort (rootsOf rows) _ hrow
  refine ⟨hpair, hstab, ?_⟩
  rw [eachChrono_iff]
  intro n hn
  rw [List.mem_mergeSort] at hn
  obtain ⟨q, hq, rfl⟩ := List.mem_map.mp hn
  have hqrows : q ∈ rows := by
    rw [rootsOf_eq_filter rows hND] at hq
    exact (List.mem_filter.mp hq).1
  exact nodeChrono_build rows hND d hEdge hBound rows.length q hqrows (Nat.sub_le _ _)

/-- Witness for C9: three same-parent (root) comments with timestamps
`3 < 1 < 2` supplied in the order `[c3, c1, c2]`; the theorem applies, and
the built root order is `[c1, c2, c3]`. -/
theorem buildTree_chrono_witness :
    (([⟨"c3", "ph", none, "u", none, "3", 3⟩,
       ⟨"c1", "ph", none, "u", none, "1", 1⟩,
       ⟨"c2", "ph", none, "u", none, "2", 2⟩] : List Row).map (·.id)).Nodup
    ∧ (∀ r ∈ ([⟨"c3", "ph", none, "u", none, "3", 3⟩,
       ⟨"c1", "ph", none, "u", none, "1", 1⟩,
       ⟨"c2", "ph", none, "u", none, "2", 2⟩] : List Row),
        hasParent [⟨"c3", "ph", none, "u", none, "3", 3⟩,
          ⟨"c1", "ph", none, "u", none, "1", 1⟩,
          ⟨"c2", "ph", none, "u", none, "2", 2⟩] r = true →
        ∀ p, r.parent_id = some p → (0 : Nat) < 0)
    ∧ (List.Pairwise (fun a b => a.row.created_at ≤ b.row.created_at)
        (buildTree [⟨"c3", "ph", none, "u", none, "3", 3⟩,
          ⟨"c1", "ph", none, "u", none, "1", 1⟩,
          ⟨"c2", "ph", none, "u", none, "2", 2⟩])
      ∧ (∀ t, ((buildTree [⟨"c3", "ph", none, "u", none, "3", 3⟩,
            ⟨"c1", "ph", none, "u", none, "1", 1⟩,
            ⟨"c2", "ph", none, "u", none, "2", 2⟩]).map Node.row).filter
              (fun q => q.created_at == t)
          = (rootsOf [⟨"c3", "ph", none, "u", none, "3", 3⟩,
              ⟨"c1", "ph", none, "u", none, "1", 1⟩,
              ⟨"c2", "ph", none, "u", none, "2", 2⟩]).filter (fun q => q.created_at == t))
      ∧ EachChrono [⟨"c3", "ph", none, "u", none, "3", 3⟩,
          ⟨"c1", "ph", none, "u", none, "1", 1⟩,
          ⟨"c2", "ph", none, "u", none, "2", 2⟩]
          (buildTree [⟨"c3", "ph", none, "u", none, "3", 3⟩,
            ⟨"c1", "ph", none, "u", none, "1", 1⟩,
            ⟨"c2", "ph", none, "u", none, "2", 2⟩]))
    ∧ (buildTree [⟨"c3", "ph", none, "u", none, "3", 3⟩,
        ⟨"c1", "ph", none, "u", none, "1", 1⟩,
        ⟨"c2", "ph", none, "u", none, "2", 2⟩]).map (fun n => n.row.id)
      = ["c1", "c2", "c3"] :=
  ⟨by decide, by decide,
    buildTree_chrono
      [⟨"c3", "ph", none, "u", none, "3", 3⟩,
       ⟨"c1", "ph", none, "u", none, "1", 1⟩,
       ⟨"c2", "ph", none, "u", none, "2", 2⟩]
      (by decide) (fun _ => 0) (by decide) (by decide),
    by
      simp [buildTree, sortForest, buildRaw, rootsOf, mapValues, mapKeys, dedupFirst,
        lastRowWith, hasParent, childrenOf, buildNodeRaw, sortEach, sortNode, nodeLE,
        List.mergeSort, Node.row]⟩

/-- Fidelity of `sortForest` to the source's order of operations: sorting
the sibling list first and then recursing into each node's replies (as
`sortRec` does) produces the same list, because the recursive descent
preserves every sort key and the sort is stable. -/
theorem sortForest_spec (l : List Node) :
    sortForest l = (l.mergeSort nodeLE).map sortNode := by
  unfold sortForest
  rw [sortEach_eq_map]
  exact (List.map_mergeSort (fun a _ b _ => by
    unfold nodeLE
    rw [row_sortNode, row_sortNode])).symm
